import Mathlib

/-
Verification of the PyTomography SPECT reconstruction core: a shallow
embedding of the rotate-and-sum system matrix
(pytomography/projectors/SPECT/spect_system_matrix.py), the MSE
likelihoods (pytomography/likelihoods/mse_objective.py) and the DIPRecon
ADMM solver (pytomography/algorithms/dip_recon.py).

Tensors are modelled over exact arithmetic: objects and projection planes
as functions from finite index types into the rationals (the DIPRecon part
uses the reals, since its update rule involves a square root). Collaborator
code that is not part of the sources here (the pad and rotate utilities,
the Transform classes, the OSEM sub-solver and the prior network) is
modelled from the spec as abstract operators, with the properties the spec
assigns to them taken as explicit hypotheses.
-/

namespace PyTomography

/-! ## Generic list helpers

Python slicing indices[i::n] and the batched view loops
(for i in range(0, len, n_parallel)) are modelled with the two
combinators below. -/

/-- Elements of a list at positions 0, n, 2n, ...; models the Python
stride slice xs[0::n]. -/
def takeEvery (n : ℕ) : List α → List α
  | [] => []
  | x :: xs => x :: takeEvery n (xs.drop (n - 1))
termination_by l => l.length
decreasing_by simp [List.length_drop]; omega

/-- Consecutive groups of n elements; models the loop
for i in range(0, len(l), n) acting on the slices l[i:i+n]. -/
def chunks (n : ℕ) : List α → List (List α)
  | [] => []
  | x :: xs => (x :: xs.take (n - 1)) :: chunks n (xs.drop (n - 1))
termination_by l => l.length
decreasing_by simp [List.length_drop]; omega

/-- Pointwise sum of a list of vectors; models a zero-filled
accumulator receiving += contributions. -/
def vsum {α : Type} (L : List (α → ℚ)) : α → ℚ :=
  fun x => (L.map (fun u => u x)).sum

@[simp] theorem vsum_nil {α : Type} : vsum ([] : List (α → ℚ)) = fun _ => 0 := rfl

@[simp] theorem vsum_cons {α : Type} (u : α → ℚ) (L : List (α → ℚ)) :
    vsum (u :: L) = fun x => u x + vsum L x := rfl

theorem vsum_append {α : Type} (L M : List (α → ℚ)) :
    vsum (L ++ M) = fun x => vsum L x + vsum M x := by
  funext x
  simp [vsum]

theorem chunks_flatten (n : ℕ) (l : List α) : (chunks n l).flatten = l := by
  match l with
  | [] => simp [chunks]
  | x :: xs =>
    have ih := chunks_flatten n (xs.drop (n - 1))
    rw [chunks]
    simp [ih]
termination_by l.length
decreasing_by simp [List.length_drop]; omega

theorem vsum_flatten {α : Type*} {β : Type} (L : List (List α)) (f : α → β → ℚ) :
    vsum (L.map (fun ch => vsum (ch.map (fun a => f a)))) =
      vsum (L.flatten.map (fun a => f a)) := by
  induction L with
  | nil => rfl
  | cons ch L ih =>
    funext x
    simp only [List.map_cons, vsum_cons, ih, List.flatten_cons, List.map_append,
      vsum_append]

/-- Summing per-chunk sums equals summing the whole list: the
algebraic content of the batched accumulation loops. -/
theorem vsum_chunks {α : Type*} {β : Type} (n : ℕ) (l : List α) (f : α → β → ℚ) :
    vsum ((chunks n l).map (fun ch => vsum (ch.map (fun a => f a)))) =
      vsum (l.map (fun a => f a)) := by
  rw [vsum_flatten, chunks_flatten]

theorem chunks_flatMap (n : ℕ) (l : List α) (f : α → β) :
    (chunks n l).flatMap (fun ch => ch.map f) = l.map f := by
  rw [List.flatMap_def, ← List.map_flatten, chunks_flatten]

/-! ## Inner products -/

/-- Inner product of two rational vectors over a finite index type. -/
def qInner [Fintype α] (u v : α → ℚ) : ℚ := ∑ x, u x * v x

theorem qInner_comm [Fintype α] (u v : α → ℚ) : qInner u v = qInner v u := by
  unfold qInner
  exact Finset.sum_congr rfl (fun x _ => mul_comm _ _)

/-- Inner product of two projection tensors represented as lists of
per-view planes, paired positionally. -/
def qInnerList [Fintype α] (G H : List (α → ℚ)) : ℚ :=
  ((G.zip H).map (fun ab => qInner ab.1 ab.2)).sum

theorem qInner_vsum {α : Type} [Fintype α] (u : α → ℚ) (L : List (α → ℚ)) :
    qInner u (vsum L) = (L.map (fun w => qInner u w)).sum := by
  induction L with
  | nil => simp [qInner]
  | cons w L ih =>
    have h : qInner u (vsum (w :: L)) = qInner u w + qInner u (vsum L) := by
      simp [qInner, mul_add, Finset.sum_add_distrib]
    rw [h, ih, List.map_cons, List.sum_cons]

/-! ## The SPECT system matrix model

Source: class SPECTSystemMatrix in
pytomography/projectors/SPECT/spect_system_matrix.py.

The object grid, the padded object grid, the projection plane and the
padded projection plane are flattened to Fin types. The padded object
grid is split as a product Fin nD x Fin nPP: the first factor is the
axis summed by object_i.sum(axis=2) during forward projection, the
second is the padded projection plane that each summed slice lands in.

Modelled from the spec: the utilities pad_object, unpad_object, pad_proj,
unpad_proj, rotate utilities and the Transform classes are not part of
the given sources; they are carried as abstract function fields, and
the adjointness the spec assigns to them is taken as hypotheses in the
theorems that need it. Projection-space transforms receive no view index
in the source and are modelled as acting identically on each view plane. -/

/-- An object-space transform: forward and backward maps on padded
objects, parameterized by the view index (the source passes
angle_indices to each obj2obj transform). -/
structure ObjTransform (nD nPP : ℕ) where
  forward : ℕ → (Fin nD × Fin nPP → ℚ) → (Fin nD × Fin nPP → ℚ)
  backward : ℕ → (Fin nD × Fin nPP → ℚ) → (Fin nD × Fin nPP → ℚ)

/-- A projection-space transform acting on one padded view plane. -/
structure ProjTransform (nPP : ℕ) where
  forward : (Fin nPP → ℚ) → (Fin nPP → ℚ)
  backward : (Fin nPP → ℚ) → (Fin nPP → ℚ)

/-- The SPECT rotate-and-sum system matrix state: metadata sizes, the
transform pipelines, the abstract pad, unpad and rotation operators, the
back-projection boundary box and the view batching width n_parallel. -/
structure SPECTSystemMatrix where
  num_projections : ℕ
  nO : ℕ
  nP : ℕ
  nD : ℕ
  nPP : ℕ
  obj2obj_transforms : List (ObjTransform nD nPP)
  proj2proj_transforms : List (ProjTransform nPP)
  pad_object : (Fin nO → ℚ) → (Fin nD × Fin nPP → ℚ)
  unpad_object : (Fin nD × Fin nPP → ℚ) → (Fin nO → ℚ)
  pad_proj : (Fin nP → ℚ) → (Fin nPP → ℚ)
  unpad_proj : (Fin nPP → ℚ) → (Fin nP → ℚ)
  rotation_forward : ℕ → (Fin nD × Fin nPP → ℚ) → (Fin nD × Fin nPP → ℚ)
  rotation_backward : ℕ → (Fin nD × Fin nPP → ℚ) → (Fin nD × Fin nPP → ℚ)
  boundary_box_bp : Fin nD × Fin nPP → ℚ
  n_parallel : ℕ

namespace SPECTSystemMatrix

variable (S : SPECTSystemMatrix)

/-- set_n_subsets: subset i is the Python stride slice indices[i::n_subsets]
of indices = arange(num_projections). The resulting list of view-index
lists is the subset_indices_array state. -/
def set_n_subsets (num_projections n_subsets : ℕ) : List (List ℕ) :=
  (List.range n_subsets).map
    (fun i => takeEvery n_subsets ((List.range num_projections).drop i))

/-- The view indices a forward or backward call ranges over:
arange(num_projections) when subset_idx is None, else
subset_indices_array[subset_idx]. -/
def angleIndices (ssa : List (List ℕ)) : Option ℕ → List ℕ
  | none => List.range S.num_projections
  | some m => ssa.getD m []

/-- Fold of the object-space transform chain in order (forward pass). -/
def applyObj2Obj (v : ℕ) (o : Fin S.nD × Fin S.nPP → ℚ) :
    Fin S.nD × Fin S.nPP → ℚ :=
  S.obj2obj_transforms.foldl (fun acc T => T.forward v acc) o

/-- Fold of the object-space transform chain in reverse order using each
backward map (adjoint pass). -/
def applyObj2ObjAdj (v : ℕ) (o : Fin S.nD × Fin S.nPP → ℚ) :
    Fin S.nD × Fin S.nPP → ℚ :=
  S.obj2obj_transforms.reverse.foldl (fun acc T => T.backward v acc) o

/-- Fold of the projection-space transform chain in order on one plane. -/
def applyProj2Proj (p : Fin S.nPP → ℚ) : Fin S.nPP → ℚ :=
  S.proj2proj_transforms.foldl (fun acc T => T.forward acc) p

/-- Fold of the projection-space transform chain in reverse order using
each backward map on one plane. -/
def applyProj2ProjAdj (p : Fin S.nPP → ℚ) : Fin S.nPP → ℚ :=
  S.proj2proj_transforms.reverse.foldl (fun acc T => T.backward acc) p

/-- One view of the forward projection: pad the object, rotate it into
the detector frame of view v (the source calls rotation backward with
angle 270 - phi), apply the object-space chain, then sum along the
projection axis. -/
def forwardView (v : ℕ) (f : Fin S.nO → ℚ) : Fin S.nPP → ℚ :=
  fun p => ∑ d, S.applyObj2Obj v (S.rotation_backward v (S.pad_object f)) (d, p)

/-- SPECTSystemMatrix.forward: loop over views in batches of n_parallel
producing one padded plane per view, then apply the projection-space
chain and unpad each plane. -/
def forward (ssa : List (List ℕ)) (idx : Option ℕ) (f : Fin S.nO → ℚ) :
    List (Fin S.nP → ℚ) :=
  ((((chunks S.n_parallel (S.angleIndices ssa idx)).flatMap
    (fun ch => ch.map (fun v => S.forwardView v f))).map
      S.applyProj2Proj).map S.unpad_proj)

/-- One view of the back projection: broadcast the transformed plane
along the projection axis weighted by the boundary box, apply the
object-space chain backward in reverse order, rotate back to the
reference frame. -/
def backwardView (v : ℕ) (gp : Fin S.nPP → ℚ) :
    Fin S.nD × Fin S.nPP → ℚ :=
  S.rotation_forward v
    (S.applyObj2ObjAdj v (fun dp => gp dp.2 * S.boundary_box_bp dp))

/-- SPECTSystemMatrix.backward with return_norm_constant = False: pad
each plane, apply the projection-space chain backward in reverse order,
back-project view by view in batches of n_parallel accumulating into a
zero-filled padded object, then unpad. Planes are paired with view
indices positionally. -/
def backward (ssa : List (List ℕ)) (idx : Option ℕ)
    (g : List (Fin S.nP → ℚ)) : Fin S.nO → ℚ :=
  S.unpad_object (vsum ((chunks S.n_parallel
    ((S.angleIndices ssa idx).zip
      ((g.map S.pad_proj).map S.applyProj2ProjAdj))).map
    (fun ch => vsum (ch.map (fun vq => S.backwardView vq.1 vq.2)))))

/-- compute_normalization_factor: back projection of an all-ones
projection tensor over the requested view set (restricting the full
all-ones tensor to a subset leaves a shorter all-ones tensor). -/
def compute_normalization_factor (ssa : List (List ℕ)) (idx : Option ℕ) :
    Fin S.nO → ℚ :=
  S.backward ssa idx
    (List.replicate (S.angleIndices ssa idx).length (fun _ => 1))

end SPECTSystemMatrix

/-! ## The stride-slice partition (set_n_subsets) -/

theorem range'_drop (j s n : ℕ) :
    (List.range' s n).drop j = List.range' (s + j) (n - j) := by
  induction j generalizing s n with
  | zero => simp
  | succ j ih =>
    cases n with
    | zero => simp
    | succ n =>
      rw [List.range'_succ, List.drop_succ_cons, ih (s + 1) n]
      congr 1 <;> omega

theorem takeEvery_range' (n : ℕ) (hn : 1 ≤ n) (s len : ℕ) :
    takeEvery n (List.range' s len) = List.range' s ((len + n - 1) / n) n := by
  match len with
  | 0 =>
    rw [show (0 + n - 1) / n = 0 from Nat.div_eq_of_lt (by omega)]
    simp [takeEvery]
  | len + 1 =>
    rw [List.range'_succ, takeEvery, range'_drop,
      takeEvery_range' n hn (s + 1 + (n - 1)) (len - (n - 1))]
    have h1 : s + 1 + (n - 1) = s + n := by omega
    have h2 : (len - (n - 1) + n - 1) / n + 1 = (len + 1 + n - 1) / n := by
      rcases le_or_lt (n - 1) len with h | h
      · have e1 : len - (n - 1) + n - 1 = len := by omega
        have e2 : len + 1 + n - 1 = len + n := by omega
        rw [e1, e2, Nat.add_div_right _ (by omega)]
      · have e1 : len - (n - 1) + n - 1 = n - 1 := by omega
        have e2 : len + 1 + n - 1 = len + n := by omega
        rw [e1, e2, Nat.add_div_right _ (by omega), Nat.div_eq_of_lt (by omega),
          Nat.div_eq_of_lt (by omega)]
    rw [h1, ← h2, List.range'_succ]

theorem takeEvery_sublist {α : Type*} (n : ℕ) (l : List α) :
    (takeEvery n l).Sublist l := by
  match l with
  | [] => simp [takeEvery]
  | x :: xs =>
    rw [takeEvery]
    exact ((takeEvery_sublist n (xs.drop (n - 1))).trans
      (List.drop_sublist _ _)).cons₂ x
termination_by l.length
decreasing_by simp [List.length_drop]; omega

theorem set_n_subsets_getD (N n i : ℕ) (hi : i < n) :
    (SPECTSystemMatrix.set_n_subsets N n).getD i [] =
      takeEvery n ((List.range N).drop i) := by
  unfold SPECTSystemMatrix.set_n_subsets
  rw [List.getD_eq_getElem?_getD, List.getElem?_map, List.getElem?_range hi]
  rfl

/-- Membership characterization of the stride partition: view v lands in
subset i exactly when v < N and v mod n = i. -/
theorem mem_set_n_subsets (N n i v : ℕ) (hn : 1 ≤ n) (hi : i < n) :
    v ∈ (SPECTSystemMatrix.set_n_subsets N n).getD i [] ↔ v < N ∧ v % n = i := by
  rw [set_n_subsets_getD N n i hi, List.range_eq_range', range'_drop,
    takeEvery_range' n hn, List.mem_range']
  simp only [Nat.zero_add]
  constructor
  · rintro ⟨k, hk, rfl⟩
    have h3 : (k + 1) * n ≤ N - i + n - 1 :=
      (Nat.le_div_iff_mul_le (show 0 < n by omega)).mp hk
    rw [add_mul, one_mul, mul_comm k n] at h3
    constructor
    · revert h3
      generalize n * k = a
      intro h3
      omega
    · rw [Nat.add_mul_mod_self_left, Nat.mod_eq_of_lt hi]
  · rintro ⟨hv, hmod⟩
    have h5 : n * (v / n) + v % n = v := Nat.div_add_mod v n
    refine ⟨v / n, ?_, ?_⟩
    · have h7 : v / n + 1 ≤ (N - i + n - 1) / n := by
        rw [Nat.le_div_iff_mul_le (show 0 < n by omega), add_mul, one_mul,
          mul_comm (v / n) n]
        revert h5
        generalize n * (v / n) = a
        intro h5
        omega
      exact h7
    · revert h5
      generalize n * (v / n) = a
      intro h5
      omega

theorem nodup_set_n_subsets (N n i : ℕ) (hi : i < n) :
    ((SPECTSystemMatrix.set_n_subsets N n).getD i []).Nodup := by
  rw [set_n_subsets_getD N n i hi]
  exact ((takeEvery_sublist n _).trans (List.drop_sublist _ _)).nodup
    (List.nodup_range N)

/-- Claim C4: after set_n_subsets, subset m holds exactly the view
indices v with v mod n_subsets = m over the full view index list; the
subsets are pairwise disjoint, their union is the full view index set,
and no subset repeats an index. -/
theorem set_n_subsets_partition (N n : ℕ) (hn : 1 ≤ n) :
    (∀ m, m < n → ∀ v,
      (v ∈ (SPECTSystemMatrix.set_n_subsets N n).getD m [] ↔ v < N ∧ v % n = m))
    ∧ (∀ m₁, m₁ < n → ∀ m₂, m₂ < n → m₁ ≠ m₂ → ∀ v,
      ¬(v ∈ (SPECTSystemMatrix.set_n_subsets N n).getD m₁ []
        ∧ v ∈ (SPECTSystemMatrix.set_n_subsets N n).getD m₂ []))
    ∧ (∀ v, v < N ↔ ∃ m, m < n
        ∧ v ∈ (SPECTSystemMatrix.set_n_subsets N n).getD m [])
    ∧ (∀ m, m < n → ((SPECTSystemMatrix.set_n_subsets N n).getD m []).Nodup) := by
  refine ⟨fun m hm v => mem_set_n_subsets N n m v hn hm, ?_, ?_, ?_⟩
  · intro m₁ h₁ m₂ h₂ hne v ⟨hv₁, hv₂⟩
    rw [mem_set_n_subsets N n m₁ v hn h₁] at hv₁
    rw [mem_set_n_subsets N n m₂ v hn h₂] at hv₂
    exact hne (hv₁.2 ▸ hv₂.2 ▸ rfl)
  · intro v
    constructor
    · intro hv
      exact ⟨v % n, Nat.mod_lt v (by omega),
        (mem_set_n_subsets N n (v % n) v hn (Nat.mod_lt v (by omega))).mpr
          ⟨hv, rfl⟩⟩
    · rintro ⟨m, hm, hv⟩
      exact ((mem_set_n_subsets N n m v hn hm).mp hv).1
  · exact fun m hm => nodup_set_n_subsets N n m hm

/-- Witness for C4 at num_projections = 5, n_subsets = 2: view 3 lies in
subset 1. -/
theorem set_n_subsets_partition_witness :
    3 ∈ (SPECTSystemMatrix.set_n_subsets 5 2).getD 1 [] :=
  ((set_n_subsets_partition 5 2 (by decide)).1 1 (by decide) 3).mpr (by decide)

/-! ## Batch-free forms of forward and backward -/

theorem forward_eq (S : SPECTSystemMatrix) (ssa : List (List ℕ))
    (idx : Option ℕ) (f : Fin S.nO → ℚ) :
    S.forward ssa idx f = (S.angleIndices ssa idx).map
      (fun v => S.unpad_proj (S.applyProj2Proj (S.forwardView v f))) := by
  unfold SPECTSystemMatrix.forward
  rw [chunks_flatMap, List.map_map, List.map_map]
  rfl

theorem backward_eq (S : SPECTSystemMatrix) (ssa : List (List ℕ))
    (idx : Option ℕ) (g : List (Fin S.nP → ℚ)) :
    S.backward ssa idx g = S.unpad_object (vsum
      (((S.angleIndices ssa idx).zip ((g.map S.pad_proj).map S.applyProj2ProjAdj)).map
        (fun vq => S.backwardView vq.1 vq.2))) := by
  unfold SPECTSystemMatrix.backward
  rw [vsum_chunks]

/-- Claim C6: view batching is value-transparent. For any batch width
k of at least 1, forward and backward agree exactly with the same call
made at n_parallel = 1, for every object, projection list and subset
index. -/
theorem n_parallel_invariance (S : SPECTSystemMatrix) (k : ℕ) (hk : 1 ≤ k)
    (ssa : List (List ℕ)) (idx : Option ℕ) (f : Fin S.nO → ℚ)
    (g : List (Fin S.nP → ℚ)) :
    ({S with n_parallel := k} : SPECTSystemMatrix).forward ssa idx f
        = ({S with n_parallel := 1} : SPECTSystemMatrix).forward ssa idx f
    ∧ ({S with n_parallel := k} : SPECTSystemMatrix).backward ssa idx g
        = ({S with n_parallel := 1} : SPECTSystemMatrix).backward ssa idx g := by
  constructor
  · rw [forward_eq, forward_eq]
    rfl
  · rw [backward_eq, backward_eq]
    rfl

/-! ## Adjointness of the transform chains and the projection axis -/

theorem proj_fold_adjoint {nPP : ℕ} (Ts : List (ProjTransform nPP))
    (h : ∀ T ∈ Ts, ∀ u w, qInner (T.forward u) w = qInner u (T.backward w))
    (u w : Fin nPP → ℚ) :
    qInner (Ts.foldl (fun a T => T.forward a) u) w
      = qInner u (Ts.reverse.foldl (fun a T => T.backward a) w) := by
  induction Ts generalizing u with
  | nil => rfl
  | cons T Ts ih =>
    rw [List.foldl_cons, List.reverse_cons, List.foldl_append, List.foldl_cons,
      List.foldl_nil]
    rw [ih (fun T₂ hT₂ => h T₂ (List.mem_cons_of_mem T hT₂)) (T.forward u)]
    exact h T (List.mem_cons_self T Ts) u _

theorem obj_fold_adjoint {nD nPP : ℕ} (Ts : List (ObjTransform nD nPP)) (v : ℕ)
    (h : ∀ T ∈ Ts, ∀ u w, qInner (T.forward v u) w = qInner u (T.backward v w))
    (u w : Fin nD × Fin nPP → ℚ) :
    qInner (Ts.foldl (fun a T => T.forward v a) u) w
      = qInner u (Ts.reverse.foldl (fun a T => T.backward v a) w) := by
  induction Ts generalizing u with
  | nil => rfl
  | cons T Ts ih =>
    rw [List.foldl_cons, List.reverse_cons, List.foldl_append, List.foldl_cons,
      List.foldl_nil]
    rw [ih (fun T₂ hT₂ => h T₂ (List.mem_cons_of_mem T hT₂)) (T.forward v u)]
    exact h T (List.mem_cons_self T Ts) u _

theorem applyProj2Proj_adjoint (S : SPECTSystemMatrix)
    (hproj : ∀ T ∈ S.proj2proj_transforms, ∀ u w,
      qInner (T.forward u) w = qInner u (T.backward w))
    (u w : Fin S.nPP → ℚ) :
    qInner (S.applyProj2Proj u) w = qInner u (S.applyProj2ProjAdj w) :=
  proj_fold_adjoint S.proj2proj_transforms hproj u w

theorem applyObj2Obj_adjoint (S : SPECTSystemMatrix) (v : ℕ)
    (hobj : ∀ T ∈ S.obj2obj_transforms, ∀ v₂ u w,
      qInner (T.forward v₂ u) w = qInner u (T.backward v₂ w))
    (u w : Fin S.nD × Fin S.nPP → ℚ) :
    qInner (S.applyObj2Obj v u) w = qInner u (S.applyObj2ObjAdj v w) :=
  obj_fold_adjoint S.obj2obj_transforms v
    (fun T hT => hobj T hT v) u w

/-- Summing the padded object along the projection axis is adjoint to
broadcasting a plane along that axis. -/
theorem sum_axis_adjoint {nD nPP : ℕ} (u : Fin nD × Fin nPP → ℚ)
    (q : Fin nPP → ℚ) :
    qInner (fun p => ∑ d, u (d, p)) q = qInner u (fun dp => q dp.2) := by
  unfold qInner
  rw [Fintype.sum_prod_type, Finset.sum_comm]
  exact Finset.sum_congr rfl (fun p _ => by rw [Finset.sum_mul])

/-- Per-view adjointness: the forward chain of one view against a plane
equals the padded object against that view of the adjoint chain. -/
theorem view_adjoint (S : SPECTSystemMatrix)
    (hbox : ∀ dp, S.boundary_box_bp dp = 1)
    (hpadP : ∀ u w, qInner (S.pad_proj u) w = qInner u (S.unpad_proj w))
    (hrot : ∀ v u w, qInner (S.rotation_backward v u) w
      = qInner u (S.rotation_forward v w))
    (hobj : ∀ T ∈ S.obj2obj_transforms, ∀ v u w,
      qInner (T.forward v u) w = qInner u (T.backward v w))
    (hproj : ∀ T ∈ S.proj2proj_transforms, ∀ u w,
      qInner (T.forward u) w = qInner u (T.backward w))
    (v : ℕ) (f : Fin S.nO → ℚ) (gv : Fin S.nP → ℚ) :
    qInner (S.unpad_proj (S.applyProj2Proj (S.forwardView v f))) gv
      = qInner (S.pad_object f)
          (S.backwardView v (S.applyProj2ProjAdj (S.pad_proj gv))) := by
  have hbroad : (fun dp => S.applyProj2ProjAdj (S.pad_proj gv) dp.2)
      = (fun dp => S.applyProj2ProjAdj (S.pad_proj gv) dp.2
          * S.boundary_box_bp dp) := by
    funext dp
    rw [hbox dp, mul_one]
  calc qInner (S.unpad_proj (S.applyProj2Proj (S.forwardView v f))) gv
      = qInner gv (S.unpad_proj (S.applyProj2Proj (S.forwardView v f))) :=
        qInner_comm _ _
    _ = qInner (S.pad_proj gv) (S.applyProj2Proj (S.forwardView v f)) :=
        (hpadP gv _).symm
    _ = qInner (S.applyProj2Proj (S.forwardView v f)) (S.pad_proj gv) :=
        qInner_comm _ _
    _ = qInner (S.forwardView v f) (S.applyProj2ProjAdj (S.pad_proj gv)) :=
        applyProj2Proj_adjoint S hproj _ _
    _ = qInner (S.applyObj2Obj v (S.rotation_backward v (S.pad_object f)))
          (fun dp => S.applyProj2ProjAdj (S.pad_proj gv) dp.2) :=
        sum_axis_adjoint _ _
    _ = qInner (S.rotation_backward v (S.pad_object f))
          (S.applyObj2ObjAdj v
            (fun dp => S.applyProj2ProjAdj (S.pad_proj gv) dp.2
              * S.boundary_box_bp dp)) := by
        rw [hbroad]
        exact applyObj2Obj_adjoint S v hobj _ _
    _ = qInner (S.pad_object f)
          (S.backwardView v (S.applyProj2ProjAdj (S.pad_proj gv))) :=
        hrot v _ _

/-- Claim C1: adjoint consistency of the SPECT system matrix. When every
object-space and projection-space transform forms an exact adjoint pair,
and rotation, padding and the boundary box do likewise, the inner product
of the forward projection with any projection tensor of compatible shape
equals the inner product of the object with the back projection. -/
theorem spect_forward_backward_adjoint (S : SPECTSystemMatrix)
    (ssa : List (List ℕ)) (idx : Option ℕ)
    (f : Fin S.nO → ℚ) (g : List (Fin S.nP → ℚ))
    (hbox : ∀ dp, S.boundary_box_bp dp = 1)
    (hpadO : ∀ u w, qInner (S.pad_object u) w = qInner u (S.unpad_object w))
    (hpadP : ∀ u w, qInner (S.pad_proj u) w = qInner u (S.unpad_proj w))
    (hrot : ∀ v u w, qInner (S.rotation_backward v u) w
      = qInner u (S.rotation_forward v w))
    (hobj : ∀ T ∈ S.obj2obj_transforms, ∀ v u w,
      qInner (T.forward v u) w = qInner u (T.backward v w))
    (hproj : ∀ T ∈ S.proj2proj_transforms, ∀ u w,
      qInner (T.forward u) w = qInner u (T.backward w))
    (hg : g.length = (S.angleIndices ssa idx).length) :
    qInnerList (S.forward ssa idx f) g = qInner f (S.backward ssa idx g) := by
  rw [forward_eq, backward_eq]
  rw [← hpadO f _, qInner_vsum]
  unfold qInnerList
  rw [List.zip_map_left, List.map_map, List.map_map, List.map_map,
    List.zip_map_right, List.map_map]
  apply congrArg List.sum
  apply List.map_congr_left
  intro vq hvq
  exact view_adjoint S hbox hpadP hrot hobj hproj vq.1 f vq.2

/-- A minimal concrete system matrix used to instantiate theorems with
hypotheses: one-voxel spaces, identity padding and rotation, empty
transform chains, three views. -/
def Sconcrete : SPECTSystemMatrix where
  num_projections := 3
  nO := 1
  nP := 1
  nD := 1
  nPP := 1
  obj2obj_transforms := []
  proj2proj_transforms := []
  pad_object := fun f _ => f 0
  unpad_object := fun u _ => u (0, 0)
  pad_proj := fun f _ => f 0
  unpad_proj := fun u _ => u 0
  rotation_forward := fun _ o => o
  rotation_backward := fun _ o => o
  boundary_box_bp := fun _ => 1
  n_parallel := 1

/-- Witness for C1 on the concrete system: three planes against a
constant object, all adjointness hypotheses discharged. -/
theorem spect_forward_backward_adjoint_witness :
    qInnerList (Sconcrete.forward [] none (fun _ => 2))
        [fun _ => 1, fun _ => 3, fun _ => 5]
      = qInner (fun _ => 2)
          (Sconcrete.backward [] none [fun _ => 1, fun _ => 3, fun _ => 5]) :=
  spect_forward_backward_adjoint Sconcrete [] none (fun _ => 2)
    [fun _ => 1, fun _ => 3, fun _ => 5]
    (fun _ => rfl)
    (fun u w => by
      simp [qInner, Sconcrete, Fintype.sum_prod_type, Fin.sum_univ_one])
    (fun u w => by simp [qInner, Sconcrete, Fin.sum_univ_one])
    (fun v u w => rfl)
    (fun T hT => absurd hT (by simp [Sconcrete]))
    (fun T hT => absurd hT (by simp [Sconcrete]))
    (by rfl)

/-- Witness for C6 on the concrete system at batch width 2. -/
theorem n_parallel_invariance_witness :
    ({Sconcrete with n_parallel := 2} : SPECTSystemMatrix).forward
        [] none (fun _ => 1)
      = ({Sconcrete with n_parallel := 1} : SPECTSystemMatrix).forward
        [] none (fun _ => 1) :=
  (n_parallel_invariance Sconcrete 2 (by decide) [] none (fun _ => 1)
    [fun _ => 1, fun _ => 1, fun _ => 1]).1

/-! ## Subset sum of normalization factors (C5) -/

theorem zip_replicate_len {α β : Type*} (l : List α) (a : β) :
    l.zip (List.replicate l.length a) = l.map (fun x => (x, a)) := by
  induction l with
  | nil => rfl
  | cons x xs ih => simp [List.replicate_succ, ih]

/-- The normalization factor is the accumulated per-view back projection
of one fixed plane: the adjoint projection chain applied to the padded
all-ones plane. -/
theorem compute_normalization_factor_eq (S : SPECTSystemMatrix)
    (ssa : List (List ℕ)) (idx : Option ℕ) :
    S.compute_normalization_factor ssa idx
      = S.unpad_object (vsum ((S.angleIndices ssa idx).map
          (fun v => S.backwardView v
            (S.applyProj2ProjAdj (S.pad_proj (fun _ => 1)))))) := by
  unfold SPECTSystemMatrix.compute_normalization_factor
  rw [backward_eq]
  rw [List.map_replicate, List.map_replicate]
  rw [show (S.angleIndices ssa idx).length
      = (S.angleIndices ssa idx).length from rfl]
  rw [zip_replicate_len, List.map_map]
  rfl

theorem unpad_finset_sum (S : SPECTSystemMatrix)
    (hadd : ∀ u w, S.unpad_object (fun dp => u dp + w dp)
      = fun x => S.unpad_object u x + S.unpad_object w x)
    (hzero : S.unpad_object (fun _ => 0) = fun _ => 0)
    (s : Finset ℕ) (W : ℕ → Fin S.nD × Fin S.nPP → ℚ) (x : Fin S.nO) :
    ∑ m ∈ s, S.unpad_object (W m) x
      = S.unpad_object (fun dp => ∑ m ∈ s, W m dp) x := by
  induction s using Finset.induction_on with
  | empty =>
    rw [Finset.sum_empty, show (fun dp => ∑ m ∈ (∅ : Finset ℕ), W m dp)
      = (fun _ => (0 : ℚ)) from funext (fun dp => Finset.sum_empty), hzero]
  | insert ha ih =>
    rename_i a s₂
    rw [Finset.sum_insert ha, ih,
      show (fun dp => ∑ m ∈ insert a s₂, W m dp)
        = (fun dp => W a dp + ∑ m ∈ s₂, W m dp) from
          funext (fun dp => Finset.sum_insert ha),
      hadd (W a) (fun dp => ∑ m ∈ s₂, W m dp)]

/-- Summing one rational-valued function over the stride partition of
range N equals summing it over range N. -/
theorem set_n_subsets_sum (N n : ℕ) (hn : 1 ≤ n) (h : ℕ → ℚ) :
    ∑ m ∈ Finset.range n,
        (((SPECTSystemMatrix.set_n_subsets N n).getD m []).map h).sum
      = ((List.range N).map h).sum := by
  have key : ∀ m ∈ Finset.range n,
      (((SPECTSystemMatrix.set_n_subsets N n).getD m []).map h).sum
        = ∑ v ∈ (Finset.range N).filter (fun v => v % n = m), h v := by
    intro m hm
    rw [Finset.mem_range] at hm
    rw [← List.sum_toFinset h (nodup_set_n_subsets N n m hm)]
    apply Finset.sum_congr
    · apply Finset.ext
      intro v
      rw [List.mem_toFinset, mem_set_n_subsets N n m v hn hm,
        Finset.mem_filter, Finset.mem_range]
    · intro v _
      rfl
  rw [Finset.sum_congr rfl key]
  rw [Finset.sum_fiberwise_of_maps_to
    (fun v hv => Finset.mem_range.mpr (Nat.mod_lt v (by omega)))]
  rw [← List.sum_toFinset h (List.nodup_range N)]
  apply Finset.sum_congr
  · apply Finset.ext
    intro v
    simp
  · intro v _
    rfl

/-- Claim C5: for every n_subsets of at least 1 dividing the number of
views, the subset normalization factors sum voxelwise to the full one,
given that unpadding (a crop) is additive. -/
theorem normalization_factor_subset_sum (S : SPECTSystemMatrix) (n : ℕ)
    (hn : 1 ≤ n) (hdvd : n ∣ S.num_projections)
    (hadd : ∀ u w, S.unpad_object (fun dp => u dp + w dp)
      = fun x => S.unpad_object u x + S.unpad_object w x)
    (hzero : S.unpad_object (fun _ => 0) = fun _ => 0)
    (x : Fin S.nO) :
    ∑ m ∈ Finset.range n, S.compute_normalization_factor
        (SPECTSystemMatrix.set_n_subsets S.num_projections n) (some m) x
      = S.compute_normalization_factor
          (SPECTSystemMatrix.set_n_subsets S.num_projections n) none x := by
  have hF : ∀ idx, S.compute_normalization_factor
      (SPECTSystemMatrix.set_n_subsets S.num_projections n) idx
        = S.unpad_object (vsum ((S.angleIndices
            (SPECTSystemMatrix.set_n_subsets S.num_projections n) idx).map
          (fun v => S.backwardView v
            (S.applyProj2ProjAdj (S.pad_proj (fun _ => 1)))))) :=
    fun idx => compute_normalization_factor_eq S _ idx
  simp only [hF]
  rw [unpad_finset_sum S hadd hzero]
  congr 1
  funext dp
  show ∑ m ∈ Finset.range n, vsum _ dp = vsum _ dp
  simp only [vsum, List.map_map]
  exact set_n_subsets_sum S.num_projections n hn _

/-- Witness for C5 on the concrete system with one subset over three
views. -/
theorem normalization_factor_subset_sum_witness :
    ∑ m ∈ Finset.range 1, Sconcrete.compute_normalization_factor
        (SPECTSystemMatrix.set_n_subsets Sconcrete.num_projections 1) (some m)
        ⟨0, by decide⟩
      = Sconcrete.compute_normalization_factor
          (SPECTSystemMatrix.set_n_subsets Sconcrete.num_projections 1) none
          ⟨0, by decide⟩ :=
  normalization_factor_subset_sum Sconcrete 1 (by decide) (by decide)
    (fun u w => rfl) rfl ⟨0, by decide⟩

/-! ## MSE likelihoods (mse_objective.py) -/

/-- The norm_BP_subset_method argument accepted by compute_gradient. -/
inductive NormBPSubsetMethod
  | subset_specific
  | average_of_subsets
deriving DecidableEq

/-- Modelled from the spec: Likelihood._get_projection_subset (base class
not among the given sources) restricts a full projection tensor to the
views of one subset, or returns it whole when subset_idx is None. -/
def getProjectionSubset (S : SPECTSystemMatrix) (ssa : List (List ℕ))
    (g : List (Fin S.nP → ℚ)) : Option ℕ → List (Fin S.nP → ℚ)
  | none => g
  | some m => (ssa.getD m []).map (fun v => g.getD v (fun _ => 0))

def listAdd {n : ℕ} (a b : List (Fin n → ℚ)) : List (Fin n → ℚ) :=
  List.zipWith (fun p q x => p x + q x) a b

def listSub {n : ℕ} (a b : List (Fin n → ℚ)) : List (Fin n → ℚ) :=
  List.zipWith (fun p q x => p x - q x) a b

def listDiv {n : ℕ} (a b : List (Fin n → ℚ)) : List (Fin n → ℚ) :=
  List.zipWith (fun p q x => p x / q x) a b

/-- State of NegativeMSELikelihood: observed projections, additive term
and the scaling constant. -/
structure NegativeMSELikelihood (S : SPECTSystemMatrix) where
  projections : List (Fin S.nP → ℚ)
  additive_term : List (Fin S.nP → ℚ)
  scaling_constant : ℚ

/-- NegativeMSELikelihood.compute_gradient: backward of the residual
g_m - (H_m f + s_m), scaled by scaling_constant. The
norm_BP_subset_method argument is received exactly as in the source. -/
def NegativeMSELikelihood.compute_gradient {S : SPECTSystemMatrix}
    (L : NegativeMSELikelihood S) (ssa : List (List ℕ))
    (object : Fin S.nO → ℚ) (idx : Option ℕ)
    (mth : NormBPSubsetMethod) : Fin S.nO → ℚ :=
  fun x => S.backward ssa idx
    (listSub (getProjectionSubset S ssa L.projections idx)
      (listAdd (S.forward ssa idx object)
        (getProjectionSubset S ssa L.additive_term idx))) x
    * L.scaling_constant

/-- State of SARTWeightedNegativeMSELikelihood. -/
structure SARTWeightedNegativeMSELikelihood (S : SPECTSystemMatrix) where
  projections : List (Fin S.nP → ℚ)
  additive_term : List (Fin S.nP → ℚ)

/-- The denominator used by the SART-weighted gradient: the forward
projection of an all-ones object (object*0+1 in the source) plus the
numeric floor. Modelled from the spec: the constant pytomography.delta is
not among the given sources and is passed as the parameter delta. -/
def sartDenominator (S : SPECTSystemMatrix) (ssa : List (List ℕ))
    (idx : Option ℕ) (delta : ℚ) : List (Fin S.nP → ℚ) :=
  (S.forward ssa idx (fun _ => 1)).map (fun pl x => pl x + delta)

/-- SARTWeightedNegativeMSELikelihood.compute_gradient: backward of the
residual divided entrywise by the SART denominator. -/
def SARTWeightedNegativeMSELikelihood.compute_gradient {S : SPECTSystemMatrix}
    (L : SARTWeightedNegativeMSELikelihood S) (ssa : List (List ℕ))
    (delta : ℚ) (object : Fin S.nO → ℚ) (idx : Option ℕ)
    (mth : NormBPSubsetMethod) : Fin S.nO → ℚ :=
  S.backward ssa idx
    (listDiv (listSub (getProjectionSubset S ssa L.projections idx)
        (listAdd (S.forward ssa idx object)
          (getProjectionSubset S ssa L.additive_term idx)))
      (sartDenominator S ssa idx delta))

/-- Claim C3 (amended): both MSE likelihoods accept norm_BP_subset_method
but never consult it; the two modes produce identical gradients for every
system, object and subset index, and no normalization term enters either
gradient. -/
theorem mse_gradient_ignores_norm_method (S : SPECTSystemMatrix)
    (L : NegativeMSELikelihood S) (L₂ : SARTWeightedNegativeMSELikelihood S)
    (ssa : List (List ℕ)) (delta : ℚ) (object : Fin S.nO → ℚ)
    (idx : Option ℕ) :
    L.compute_gradient ssa object idx NormBPSubsetMethod.subset_specific
      = L.compute_gradient ssa object idx
          NormBPSubsetMethod.average_of_subsets
    ∧ L₂.compute_gradient ssa delta object idx
          NormBPSubsetMethod.subset_specific
      = L₂.compute_gradient ssa delta object idx
          NormBPSubsetMethod.average_of_subsets :=
  ⟨rfl, rfl⟩

/-- Counterexample to C3 as stated: three views split into two subsets of
unequal sizes, yet the two norm_BP_subset_method modes return the very
same gradient, because the source ignores the argument. -/
theorem mse_norm_method_counterexample :
    ((SPECTSystemMatrix.set_n_subsets 3 2).getD 0 []).length
        ≠ ((SPECTSystemMatrix.set_n_subsets 3 2).getD 1 []).length
    ∧ NegativeMSELikelihood.compute_gradient
        (S := Sconcrete)
        ⟨[fun _ => 1, fun _ => 2, fun _ => 3],
         [fun _ => 0, fun _ => 0, fun _ => 0], 1⟩
        (SPECTSystemMatrix.set_n_subsets 3 2) (fun _ => 1) (some 0)
        NormBPSubsetMethod.subset_specific
      = NegativeMSELikelihood.compute_gradient
        (S := Sconcrete)
        ⟨[fun _ => 1, fun _ => 2, fun _ => 3],
         [fun _ => 0, fun _ => 0, fun _ => 0], 1⟩
        (SPECTSystemMatrix.set_n_subsets 3 2) (fun _ => 1) (some 0)
        NormBPSubsetMethod.average_of_subsets := by
  refine ⟨?_, rfl⟩
  have e : SPECTSystemMatrix.set_n_subsets 3 2 = [[0, 2], [1]] := by
    simp [SPECTSystemMatrix.set_n_subsets, takeEvery, List.range_succ]
  rw [e]
  decide

/-- Claim C9: the SART-weighted gradient divides the residual by the
forward projection of an all-ones object plus the strictly positive floor
delta; when that forward projection is nonnegative, every denominator
entry is strictly positive, so the division never hits a zero
denominator. -/
theorem sart_denominator_positive (S : SPECTSystemMatrix)
    (L : SARTWeightedNegativeMSELikelihood S) (ssa : List (List ℕ))
    (delta : ℚ) (object : Fin S.nO → ℚ) (idx : Option ℕ)
    (hdelta : 0 < delta)
    (hfwd : ∀ pl ∈ S.forward ssa idx (fun _ => 1), ∀ x, 0 ≤ pl x) :
    (∀ pl ∈ sartDenominator S ssa idx delta, ∀ x, 0 < pl x)
    ∧ L.compute_gradient ssa delta object idx
        NormBPSubsetMethod.subset_specific
      = S.backward ssa idx
          (listDiv (listSub (getProjectionSubset S ssa L.projections idx)
              (listAdd (S.forward ssa idx object)
                (getProjectionSubset S ssa L.additive_term idx)))
            (sartDenominator S ssa idx delta)) := by
  refine ⟨?_, rfl⟩
  intro pl hpl x
  unfold sartDenominator at hpl
  rw [List.mem_map] at hpl
  obtain ⟨pl₀, hpl₀, rfl⟩ := hpl
  have h := hfwd pl₀ hpl₀ x
  show 0 < pl₀ x + delta
  linarith

/-- Witness for C9 on the concrete system with floor 1. -/
theorem sart_denominator_positive_witness :
    SARTWeightedNegativeMSELikelihood.compute_gradient
        (S := Sconcrete)
        ⟨[fun _ => 1, fun _ => 2, fun _ => 3],
         [fun _ => 0, fun _ => 0, fun _ => 0]⟩
        [] 1 (fun _ => 1) none NormBPSubsetMethod.subset_specific
      = Sconcrete.backward [] none
          (listDiv (listSub
              (getProjectionSubset Sconcrete []
                [fun _ => 1, fun _ => 2, fun _ => 3] none)
              (listAdd (Sconcrete.forward [] none (fun _ => 1))
                (getProjectionSubset Sconcrete []
                  [fun _ => 0, fun _ => 0, fun _ => 0] none)))
            (sartDenominator Sconcrete [] none 1)) :=
  (sart_denominator_positive Sconcrete
    ⟨[fun _ => 1, fun _ => 2, fun _ => 3],
     [fun _ => 0, fun _ => 0, fun _ => 0]⟩
    [] 1 (fun _ => 1) none (by norm_num)
    (by
      rw [forward_eq]
      intro pl hpl x
      rw [List.mem_map] at hpl
      obtain ⟨v, hv, rfl⟩ := hpl
      simp [Sconcrete, SPECTSystemMatrix.applyProj2Proj,
        SPECTSystemMatrix.forwardView, SPECTSystemMatrix.applyObj2Obj,
        Fin.sum_univ_one])).2

/-! ## The DIPRecon ADMM solver (dip_recon.py)

Objects are real-valued functions on a finite voxel index type; the
inner update takes a real square root, so this part is noncomputable.
Modelled from the spec: the OSEM sub-solver and the prior network are
not among the given sources; the one-step subset EM update and the
fit/predict pair are abstract fields of the model. -/

/-- Pointwise rectifier nn.ReLU. -/
noncomputable def relu {I : Type} (v : I → ℝ) : I → ℝ := fun i => max (v i) 0

/-- Configuration of a DIPRecon run: the abstract one-subset EM update
(arguments: n_subsets, subset index, reseeded object prediction), the
normalization factor accessor of the underlying system matrix, the prior
network as a state machine with fit and predict, and the penalty rho. -/
structure DIPModel (I σ : Type) where
  emStep : ℕ → ℕ → (I → ℝ) → (I → ℝ)
  normFactor : Option ℕ → I → ℝ
  netInit : σ
  netFit : σ → (I → ℝ) → σ
  netPredict : σ → I → ℝ
  rho : ℝ

/-- The closed-form quadratic update of DIPRecon.__call__:
x = 0.5 (x_network - mu - c/rho) + 0.5 sqrt((x_network - mu - c/rho)^2
+ 4 x_EM c / rho). -/
noncomputable def dipInnerUpdate (x_network mu c rho xEM : ℝ) : ℝ :=
  0.5 * (x_network - mu - c / rho)
    + 0.5 * Real.sqrt ((x_network - mu - c / rho) ^ 2 + 4 * xEM * c / rho)

/-- Solver state across the outer loop of DIPRecon.__call__. -/
structure DIPState (I σ : Type) where
  x : I → ℝ
  x_network : I → ℝ
  mu : I → ℝ
  net : σ
  object_prediction : I → ℝ

/-- One inner step: reseed the EM solver with relu x, take one subset EM
step, then apply the closed-form update voxelwise. -/
noncomputable def dipInnerStep {I σ : Type} (M : DIPModel I σ) (c : I → ℝ)
    (x_network mu : I → ℝ) (n_subsets_osem : ℕ) (x : I → ℝ) (k : ℕ) :
    I → ℝ :=
  fun i => dipInnerUpdate (x_network i) (mu i) (c i) M.rho
    (M.emStep n_subsets_osem k (relu x) i)

/-- One outer iteration of DIPRecon.__call__: subit1 rounds of the inner
subset loop, then fit the network to x + mu, refresh the prediction,
accumulate the dual and rectify the outgoing prediction. -/
noncomputable def dipOuterStep {I σ : Type} (M : DIPModel I σ) (c : I → ℝ)
    (subit1 n_subsets_osem : ℕ) (s : DIPState I σ) : DIPState I σ :=
  let x1 := (List.range subit1).foldl
    (fun x _ => (List.range n_subsets_osem).foldl
      (dipInnerStep M c s.x_network s.mu n_subsets_osem) x) s.x
  let net1 := M.netFit s.net (fun i => x1 i + s.mu i)
  let xnet1 := M.netPredict net1
  { x := x1
    x_network := xnet1
    mu := fun i => s.mu i + x1 i - xnet1 i
    net := net1
    object_prediction := relu xnet1 }

/-- Initial state of DIPRecon.__call__: mu = 0, x the network prediction,
x_network a copy of x. The object_prediction attribute does not exist in
the source before the first outer iteration; the value below is never
returned when n_iters is at least 1. -/
noncomputable def dipInit {I σ : Type} (M : DIPModel I σ) : DIPState I σ :=
  { x := M.netPredict M.netInit
    x_network := M.netPredict M.netInit
    mu := fun _ => 0
    net := M.netInit
    object_prediction := relu (M.netPredict M.netInit) }

/-- DIPRecon.__call__: fetch the full-view normalization factor once,
run n_iters outer iterations, return the final rectified prediction. -/
noncomputable def dipCall {I σ : Type} (M : DIPModel I σ)
    (n_iters subit1 n_subsets_osem : ℕ) : I → ℝ :=
  ((List.range n_iters).foldl
    (fun s _ => dipOuterStep M (M.normFactor none) subit1 n_subsets_osem s)
    (dipInit M)).object_prediction

/-- Modelled from the spec: the pure EM/OSEM solver iterates the
one-subset EM update, visiting subsets cyclically, for a given number of
subset steps from a given initial estimate. -/
noncomputable def pureEM {I σ : Type} (M : DIPModel I σ)
    (n_subsets : ℕ) (x0 : I → ℝ) : ℕ → I → ℝ
  | 0 => x0
  | t + 1 => M.emStep n_subsets (t % n_subsets) (pureEM M n_subsets x0 t)

/-- A concrete one-voxel DIP model with an identity network, used to
instantiate theorems. -/
noncomputable def Mdip : DIPModel (Fin 1) (Fin 1 → ℝ) where
  emStep := fun _ _ x => x
  normFactor := fun _ _ => 0
  netInit := fun _ => 0
  netFit := fun _ v => v
  netPredict := fun s => s
  rho := 1

/-- Claim C7: the inner EM step updates the primal variable voxelwise by
the closed-form rule 0.5 a + 0.5 sqrt(a^2 + 4 xEM c / rho) with
a = x_network - mu - c/rho, and for nonnegative xEM and c and positive
rho this value is nonnegative: it is the nonnegative root of the
quadratic optimality condition. -/
theorem dip_quadratic_update_nonneg {I σ : Type} (M : DIPModel I σ)
    (c x_network mu : I → ℝ) (n_sub k : ℕ) (x : I → ℝ) (i : I)
    (xn m cv rho xEM : ℝ) (hEM : 0 ≤ xEM) (hcv : 0 ≤ cv) (hrho : 0 < rho) :
    dipInnerStep M c x_network mu n_sub x k i
      = 0.5 * (x_network i - mu i - c i / M.rho)
        + 0.5 * Real.sqrt ((x_network i - mu i - c i / M.rho) ^ 2
            + 4 * M.emStep n_sub k (relu x) i * c i / M.rho)
    ∧ 0 ≤ dipInnerUpdate xn m cv rho xEM := by
  constructor
  · rfl
  · have hb : 0 ≤ 4 * xEM * cv / rho := by positivity
    have h1 : (xn - m - cv / rho) ^ 2
        ≤ (xn - m - cv / rho) ^ 2 + 4 * xEM * cv / rho := by linarith
    have h2 := Real.sqrt_le_sqrt h1
    rw [Real.sqrt_sq_eq_abs] at h2
    have h3 : -(xn - m - cv / rho) ≤ |xn - m - cv / rho| := neg_le_abs _
    unfold dipInnerUpdate
    linarith

/-- Witness for C7 at x_network = 1, mu = 0, c = 0, rho = 1, x_EM = 0. -/
theorem dip_quadratic_update_nonneg_witness :
    0 ≤ dipInnerUpdate 1 0 0 1 0 :=
  (dip_quadratic_update_nonneg Mdip (fun _ => 0) (fun _ => 1) (fun _ => 0)
    1 0 (fun _ => 0) 0 1 0 0 1 0 le_rfl le_rfl one_pos).2

/-- Every state reached by the outer loop carries a rectified
object_prediction. -/
theorem dip_pred_relu {I σ : Type} (M : DIPModel I σ) (c : I → ℝ)
    (subit1 nsub n : ℕ) :
    ∃ v, ((List.range n).foldl
        (fun s _ => dipOuterStep M c subit1 nsub s)
          (dipInit M)).object_prediction = relu v := by
  induction n with
  | zero => exact ⟨M.netPredict M.netInit, rfl⟩
  | succ n ih =>
    rw [List.range_succ, List.foldl_append, List.foldl_cons, List.foldl_nil]
    exact ⟨_, rfl⟩

/-- Claim C8: for n_iters and subit1 at least 1 and every prior network
and EM step, the volume DIPRecon returns has no negative entries: the
returned volume is the rectified network prediction. -/
theorem dip_output_nonneg {I σ : Type} (M : DIPModel I σ)
    (n_iters subit1 n_subsets_osem : ℕ) (h1 : 1 ≤ n_iters)
    (h2 : 1 ≤ subit1) (i : I) :
    0 ≤ dipCall M n_iters subit1 n_subsets_osem i := by
  obtain ⟨v, hv⟩ := dip_pred_relu M (M.normFactor none) subit1
    n_subsets_osem n_iters
  unfold dipCall
  rw [hv]
  exact le_max_right _ _

/-- Witness for C8 on the concrete model. -/
theorem dip_output_nonneg_witness : 0 ≤ dipCall Mdip 1 1 1 0 :=
  dip_output_nonneg Mdip 1 1 1 le_rfl le_rfl 0

/-- Claim C10: the solver consumes only the full-view normalization
factor, fetched once before the loops: replacing all subset-specific
factors while keeping the full-view factor leaves the output of every
call unchanged. -/
theorem dip_norm_factor_full_views_only {I σ : Type} (M : DIPModel I σ)
    (g : Option ℕ → I → ℝ) (hg : g none = M.normFactor none)
    (n_iters subit1 n_subsets_osem : ℕ) :
    dipCall ({M with normFactor := g}) n_iters subit1 n_subsets_osem
      = dipCall M n_iters subit1 n_subsets_osem := by
  unfold dipCall
  have hg2 : ({M with normFactor := g} : DIPModel I σ).normFactor none
      = M.normFactor none := hg
  rw [hg2]
  rfl

/-- A normalization accessor that disagrees with Mdip on every
subset-specific factor but agrees on the full-view factor. -/
noncomputable def gAlt : Option ℕ → Fin 1 → ℝ := fun o => match o with
  | none => fun _ => 0
  | some _ => fun _ => 1

/-- Witness for C10: Mdip with all subset factors replaced. -/
theorem dip_norm_factor_full_views_only_witness :
    dipCall ({Mdip with normFactor := gAlt}) 1 1 1 = dipCall Mdip 1 1 1 :=
  dip_norm_factor_full_views_only Mdip gAlt rfl 1 1 1

/-! ## The ADMM fixed-point property (C2) -/

/-- A one-voxel identity-network model whose EM step returns the
constant 2, separating DIPRecon from the pure EM solver. -/
noncomputable def Mdip2 : DIPModel (Fin 1) (Fin 1 → ℝ) where
  emStep := fun _ _ _ _ => 2
  normFactor := fun _ _ => 1
  netInit := fun _ => 0
  netFit := fun _ v => v
  netPredict := fun s => s
  rho := 1

theorem dipInnerUpdate_concrete : dipInnerUpdate 0 0 1 1 2 = 1 := by
  unfold dipInnerUpdate
  rw [show ((0 : ℝ) - 0 - 1 / 1) ^ 2 + 4 * 2 * 1 / 1 = 3 ^ 2 by norm_num,
    Real.sqrt_sq (by norm_num : (0 : ℝ) ≤ 3)]
  norm_num

/-- Counterexample to C2 as stated: on the one-voxel identity-network
model with EM step constantly 2, rho = 1 and full-view normalization
factor 1, one ADMM outer iteration (subit1 = 1) returns 1, while one
pure EM step from the same initial estimate returns 2. -/
theorem dip_identity_not_pure_em :
    dipCall Mdip2 1 1 1 0
      ≠ pureEM Mdip2 1 (relu (Mdip2.netPredict Mdip2.netInit)) (1 * 1) 0 := by
  have hL : dipCall Mdip2 1 1 1 0 = 1 := by
    show max (dipInnerUpdate 0 0 1 1 2 + 0) 0 = 1
    rw [dipInnerUpdate_concrete]
    norm_num
  have hR : pureEM Mdip2 1 (relu (Mdip2.netPredict Mdip2.netInit)) (1 * 1) 0
      = 2 := rfl
  rw [hL, hR]
  norm_num

theorem relu_of_nonneg {I : Type} (v : I → ℝ) (h : ∀ i, 0 ≤ v i) :
    relu v = v := by
  funext i
  exact max_eq_left (h i)

/-- At a nonnegative EM fixed point the quadratic blend is the identity:
the square-root argument is a perfect square. -/
theorem dipInnerUpdate_fixed (x0 c rho : ℝ) (hx : 0 ≤ x0) (hc : 0 ≤ c)
    (hrho : 0 < rho) : dipInnerUpdate x0 0 c rho x0 = x0 := by
  unfold dipInnerUpdate
  have ht : 0 ≤ c / rho := div_nonneg hc hrho.le
  rw [show (x0 - 0 - c / rho) ^ 2 + 4 * x0 * c / rho
      = (x0 + c / rho) ^ 2 by ring,
    Real.sqrt_sq (by linarith)]
  ring

theorem dip_fixed_aux {I σ : Type} (M : DIPModel I σ)
    (hpos : ∀ i, 0 ≤ M.netPredict M.netInit i)
    (hfix : ∀ nsub k, M.emStep nsub k (M.netPredict M.netInit)
      = M.netPredict M.netInit)
    (hc : ∀ i, 0 ≤ M.normFactor none i)
    (hrho : 0 < M.rho) (nsub : ℕ)
    (xn mu : I → ℝ) (hxn : xn = M.netPredict M.netInit)
    (hmu : mu = fun _ => 0) :
    ∀ (l : List ℕ) (x : I → ℝ), x = M.netPredict M.netInit →
      l.foldl (dipInnerStep M (M.normFactor none) xn mu nsub) x
        = M.netPredict M.netInit := by
  intro l
  induction l with
  | nil =>
    intro x hx
    rw [List.foldl_nil]
    exact hx
  | cons k l ihl =>
    intro x hx
    rw [List.foldl_cons]
    apply ihl
    funext i
    show dipInnerUpdate (xn i) (mu i) (M.normFactor none i) M.rho
      (M.emStep nsub k (relu x) i) = M.netPredict M.netInit i
    rw [hxn, hmu, hx, relu_of_nonneg _ hpos, hfix nsub k]
    exact dipInnerUpdate_fixed (M.netPredict M.netInit i)
      (M.normFactor none i) M.rho (hpos i) (hc i) hrho

theorem dip_fixed_aux2 {I σ : Type} (M : DIPModel I σ)
    (hpos : ∀ i, 0 ≤ M.netPredict M.netInit i)
    (hfix : ∀ nsub k, M.emStep nsub k (M.netPredict M.netInit)
      = M.netPredict M.netInit)
    (hc : ∀ i, 0 ≤ M.normFactor none i)
    (hrho : 0 < M.rho) (nsub : ℕ)
    (xn mu : I → ℝ) (hxn : xn = M.netPredict M.netInit)
    (hmu : mu = fun _ => 0) :
    ∀ (l : List ℕ) (x : I → ℝ), x = M.netPredict M.netInit →
      l.foldl (fun x _ => (List.range nsub).foldl
        (dipInnerStep M (M.normFactor none) xn mu nsub) x) x
        = M.netPredict M.netInit := by
  intro l
  induction l with
  | nil =>
    intro x hx
    rw [List.foldl_nil]
    exact hx
  | cons j l ihl =>
    intro x hx
    rw [List.foldl_cons]
    exact ihl _ (dip_fixed_aux M hpos hfix hc hrho nsub xn mu hxn hmu _ x hx)

theorem dipOuterStep_fixed {I σ : Type} (M : DIPModel I σ)
    (hnet : ∀ s v, M.netPredict (M.netFit s v) = v)
    (hpos : ∀ i, 0 ≤ M.netPredict M.netInit i)
    (hfix : ∀ nsub k, M.emStep nsub k (M.netPredict M.netInit)
      = M.netPredict M.netInit)
    (hc : ∀ i, 0 ≤ M.normFactor none i)
    (hrho : 0 < M.rho) (subit1 nsub : ℕ) (s : DIPState I σ)
    (hsx : s.x = M.netPredict M.netInit)
    (hsxn : s.x_network = M.netPredict M.netInit)
    (hsmu : s.mu = fun _ => 0) :
    ((dipOuterStep M (M.normFactor none) subit1 nsub s).x
        = M.netPredict M.netInit)
    ∧ ((dipOuterStep M (M.normFactor none) subit1 nsub s).x_network
        = M.netPredict M.netInit)
    ∧ ((dipOuterStep M (M.normFactor none) subit1 nsub s).mu = fun _ => 0)
    ∧ ((dipOuterStep M (M.normFactor none) subit1 nsub s).object_prediction
        = relu (M.netPredict M.netInit)) := by
  have hx1 : (List.range subit1).foldl
      (fun x _ => (List.range nsub).foldl
        (dipInnerStep M (M.normFactor none) s.x_network s.mu nsub) x) s.x
      = M.netPredict M.netInit :=
    dip_fixed_aux2 M hpos hfix hc hrho nsub s.x_network s.mu hsxn hsmu _ s.x hsx
  refine ⟨hx1, ?_, ?_, ?_⟩
  · show M.netPredict (M.netFit s.net (fun i =>
        ((List.range subit1).foldl
          (fun x _ => (List.range nsub).foldl
            (dipInnerStep M (M.normFactor none) s.x_network s.mu nsub) x)
          s.x) i + s.mu i)) = M.netPredict M.netInit
    rw [hnet, hx1, hsmu]
    funext i
    exact add_zero _
  · show (fun i => s.mu i
        + ((List.range subit1).foldl
          (fun x _ => (List.range nsub).foldl
            (dipInnerStep M (M.normFactor none) s.x_network s.mu nsub) x)
          s.x) i
        - M.netPredict (M.netFit s.net (fun j =>
            ((List.range subit1).foldl
              (fun x _ => (List.range nsub).foldl
                (dipInnerStep M (M.normFactor none) s.x_network s.mu nsub) x)
              s.x) j + s.mu j)) i) = fun _ => 0
    rw [hnet, hx1, hsmu]
    funext i
    simp
  · show relu (M.netPredict (M.netFit s.net (fun j =>
        ((List.range subit1).foldl
          (fun x _ => (List.range nsub).foldl
            (dipInnerStep M (M.normFactor none) s.x_network s.mu nsub) x)
          s.x) j + s.mu j))) = relu (M.netPredict M.netInit)
    rw [hnet, hx1, hsmu]
    exact congrArg relu (funext fun j => add_zero _)

theorem dip_fold_fixed {I σ : Type} (M : DIPModel I σ)
    (hnet : ∀ s v, M.netPredict (M.netFit s v) = v)
    (hpos : ∀ i, 0 ≤ M.netPredict M.netInit i)
    (hfix : ∀ nsub k, M.emStep nsub k (M.netPredict M.netInit)
      = M.netPredict M.netInit)
    (hc : ∀ i, 0 ≤ M.normFactor none i)
    (hrho : 0 < M.rho) (subit1 nsub : ℕ) (n : ℕ) :
    (((List.range n).foldl
        (fun s _ => dipOuterStep M (M.normFactor none) subit1 nsub s)
        (dipInit M)).x = M.netPredict M.netInit)
    ∧ (((List.range n).foldl
        (fun s _ => dipOuterStep M (M.normFactor none) subit1 nsub s)
        (dipInit M)).x_network = M.netPredict M.netInit)
    ∧ (((List.range n).foldl
        (fun s _ => dipOuterStep M (M.normFactor none) subit1 nsub s)
        (dipInit M)).mu = fun _ => 0)
    ∧ (((List.range n).foldl
        (fun s _ => dipOuterStep M (M.normFactor none) subit1 nsub s)
        (dipInit M)).object_prediction = relu (M.netPredict M.netInit)) := by
  induction n with
  | zero => exact ⟨rfl, rfl, rfl, rfl⟩
  | succ n ih =>
    obtain ⟨h1, h2, h3, _⟩ := ih
    rw [List.range_succ, List.foldl_append, List.foldl_cons, List.foldl_nil]
    exact dipOuterStep_fixed M hnet hpos hfix hc hrho subit1 nsub _ h1 h2 h3

theorem pureEM_fixed {I σ : Type} (M : DIPModel I σ) (nsub : ℕ)
    (hfix : ∀ nsub2 k, M.emStep nsub2 k (M.netPredict M.netInit)
      = M.netPredict M.netInit)
    (hpos : ∀ i, 0 ≤ M.netPredict M.netInit i) :
    ∀ t, pureEM M nsub (relu (M.netPredict M.netInit)) t
      = M.netPredict M.netInit := by
  intro t
  induction t with
  | zero => exact relu_of_nonneg _ hpos
  | succ t ih =>
    show M.emStep nsub (t % nsub)
      (pureEM M nsub (relu (M.netPredict M.netInit)) t) = _
    rw [ih]
    exact hfix nsub (t % nsub)

/-- Claim C2 (amended): with an identity prior network whose initial
prediction is nonnegative and fixed by every EM subset step, and with a
nonnegative full-view normalization factor and positive rho, DIPRecon
and the pure EM solver agree for all iteration counts: both return the
initial estimate. Away from EM fixed points the two differ (see the
counterexample): the blended quadratic update does not reduce to the raw
EM update. -/
theorem dip_identity_fixed_point_eq_pure_em {I σ : Type} (M : DIPModel I σ)
    (hnet : ∀ s v, M.netPredict (M.netFit s v) = v)
    (hpos : ∀ i, 0 ≤ M.netPredict M.netInit i)
    (hfix : ∀ nsub k, M.emStep nsub k (M.netPredict M.netInit)
      = M.netPredict M.netInit)
    (hc : ∀ i, 0 ≤ M.normFactor none i)
    (hrho : 0 < M.rho)
    (n_iters subit1 n_subsets_osem : ℕ) :
    dipCall M n_iters subit1 n_subsets_osem
      = pureEM M n_subsets_osem (relu (M.netPredict M.netInit))
          (n_iters * subit1) := by
  have h4 := (dip_fold_fixed M hnet hpos hfix hc hrho subit1
    n_subsets_osem n_iters).2.2.2
  unfold dipCall
  rw [h4, pureEM_fixed M n_subsets_osem hfix hpos (n_iters * subit1)]
  exact relu_of_nonneg _ hpos

/-- Witness for the amended C2 on the concrete identity model. -/
theorem dip_identity_fixed_point_eq_pure_em_witness :
    dipCall Mdip 2 3 1
      = pureEM Mdip 1 (relu (Mdip.netPredict Mdip.netInit)) (2 * 3) :=
  dip_identity_fixed_point_eq_pure_em Mdip (fun s v => rfl)
    (fun i => le_refl 0) (fun nsub k => rfl) (fun i => le_refl 0)
    one_pos 2 3 1

end PyTomography
